import Mathlib

/-!
Verification of the openclaw-mcp-bridge plugin core: a shallow embedding of
its name resolver, environment-placeholder substitution, cache loading, tool
registration, result normalization, and the lazy connection pool, together
with theorems checking the specification's claims against that embedding.

The embedding follows the TypeScript source: JSON-ish values are modelled by
an inductive `Json` type, strings are manipulated through their character
lists, and the asynchronous connection pool is modelled as a small-step
transition system whose atomic steps are the maximal synchronous (await-free)
code sections of `getClient` / the pool.
-/

namespace McpBridge

/-! ## JSON values

JavaScript values flowing through the plugin (cache documents, tool call
results, schemas) are modelled as JSON trees.  A missing object field is
`Option.none` at the access site; an explicit `null` is `Json.null` (the
distinction matters because `??` treats both alike while `!==` does not). -/

inductive Json where
  | null
  | bool (b : Bool)
  | num (n : Int)
  | str (s : String)
  | arr (elems : List Json)
  | obj (fields : List (String × Json))

/-- Field lookup on an object literal: first binding wins, as for a parsed
JSON object.  Access on a non-object or a missing key yields `none`
(JavaScript `undefined`). -/
def lookupField : List (String × Json) → String → Option Json
  | [], _ => none
  | (k', v) :: t, k => if k' = k then some v else lookupField t k

def getField (j : Json) (k : String) : Option Json :=
  match j with
  | .obj fs => lookupField fs k
  | _ => none

mutual

/-- `JSON.stringify` on the modelled values (object key order preserved,
minimal escaping). -/
def stringify : Json → String
  | .null => "null"
  | .bool true => "true"
  | .bool false => "false"
  | .num n => toString n
  | .str s => "\"" ++ s ++ "\""
  | .arr xs => "[" ++ String.intercalate "," (stringifyList xs) ++ "]"
  | .obj fs => "\x7b" ++ String.intercalate "," (stringifyFields fs) ++ "\x7d"

def stringifyList : List Json → List String
  | [] => []
  | j :: t => stringify j :: stringifyList t

def stringifyFields : List (String × Json) → List String
  | [] => []
  | (k, v) :: t => ("\"" ++ k ++ "\":" ++ stringify v) :: stringifyFields t

end

/-- The `{ type: "text", text: s }` content item used by the bridge. -/
def textItem (s : String) : Json :=
  .obj [("type", .str "text"), ("text", .str s)]

/-! ## Name Resolver: `sanitizeToolName`

Source (`part_000` lines 58–73 and `part_001` lines 58–70): the inner
`sanitize` lambda chains four string transforms
`.replace(/[^a-zA-Z0-9_]/g,"_")`, `.replace(/_+/g,"_")`,
`.replace(/^_|_$/g,"")`, `.toLowerCase()`; then the outer function
concatenates `sanitize(serverName) + "_" + sanitize(toolName)` when the
prefix flag is set and returns `sanitize(toolName)` alone otherwise. -/

/-- Characters kept by `/[^a-zA-Z0-9_]/` (i.e. matching `[a-zA-Z0-9_]`). -/
def keepChar (c : Char) : Bool :=
  (('a' ≤ c) && (c ≤ 'z')) || (('A' ≤ c) && (c ≤ 'Z')) ||
  (('0' ≤ c) && (c ≤ '9')) || (c == '_')

/-- `.replace(/[^a-zA-Z0-9_]/g, "_")`. -/
def replaceBad (l : List Char) : List Char :=
  l.map (fun c => if keepChar c then c else '_')

/-- `.replace(/_+/g, "_")`: every maximal run of underscores becomes one. -/
def collapseU : List Char → List Char
  | [] => []
  | [c] => [c]
  | a :: b :: t =>
    if a = '_' && b = '_' then collapseU (b :: t) else a :: collapseU (b :: t)

/-- Drop a single leading underscore, if present. -/
def dropLead : List Char → List Char
  | [] => []
  | c :: t => if c = '_' then t else c :: t

/-- `.replace(/^_|_$/g, "")`: the global regex removes at most one leading
and at most one trailing underscore (`^` matches only at index 0, `$` only at
the end). -/
def stripU (l : List Char) : List Char :=
  (dropLead (dropLead l).reverse).reverse

/-- The inner `sanitize` lambda, on character lists. -/
def sanitizeL (l : List Char) : List Char :=
  (stripU (collapseU (replaceBad l))).map Char.toLower

/-- The inner `sanitize` lambda of `sanitizeToolName`. -/
def sanitize (s : String) : String := ⟨sanitizeL s.data⟩

/-- `sanitizeToolName(serverName, toolName, prefix)` from the source. -/
def sanitizeToolName (serverName toolName : String) (usePfx : Bool) : String :=
  if usePfx then sanitize serverName ++ "_" ++ sanitize toolName
  else sanitize toolName

/-- Characters that can appear in `sanitize` output: lowercase latin
letters, digits, underscore (codepoints in `[97,122]`, `[48,57]`, or 95). -/
def lowerGood (c : Char) : Bool :=
  (decide (97 ≤ c.toNat) && decide (c.toNat ≤ 122)) ||
  (decide (48 ≤ c.toNat) && decide (c.toNat ≤ 57)) || (c.toNat == 95)

/-- No two adjacent underscores. -/
def NoAdj (l : List Char) : Prop :=
  l.Chain' (fun a b => a ≠ '_' ∨ b ≠ '_')

/-! ## Name Resolver: `resolveEnvVars`

Source (`part_000` lines 52–56, `part_001` lines 37–41, `discover.ts` lines
42–46): `value.replace(/\$\{([^}]+)\}/g, (_, name) => process.env[name] ?? "")`.
The regex matches a `${`, then one or more characters other than `}` (so the
captured name runs to the first closing brace), then `}`; each match is
replaced by the environment value, or the empty string when the variable is
unset.  Replacement values are not rescanned.  The process environment is
modelled as a partial map `String → Option String`. -/

/-- Split off the (possibly empty) run of characters before the first `}`;
`none` when no closing brace exists.  Mirrors how `[^}]+\}` delimits the
captured variable name. -/
def findBrace : List Char → Option (List Char × List Char)
  | [] => none
  | c :: t =>
    if c = '}' then some ([], t)
    else (findBrace t).map (fun p => (c :: p.1, p.2))

theorem findBrace_length {l name rest : List Char}
    (h : findBrace l = some (name, rest)) : rest.length < l.length + 1 := by
  induction l generalizing name rest with
  | nil => simp [findBrace] at h
  | cons c t ih =>
    simp only [findBrace] at h
    split at h
    · cases h; simp only [List.length_cons]; omega
    · cases he : findBrace t with
      | none => rw [he] at h; simp at h
      | some p =>
        rw [he] at h
        cases h
        have := ih (show findBrace t = some (p.1, p.2) by rw [he])
        simp only [List.length_cons]
        omega

/-- `resolveEnvVars` on character lists: scan left to right; at each `${`
whose variable name (the run up to the first following `}`) is nonempty,
splice in the environment value (empty when unset) and continue after the
`}`; every other character is copied.  A `${}` or an unterminated `${` is not
a match, and scanning resumes at the following character, as the regex
engine does. -/
def resolveL (env : String → Option String) : List Char → List Char
  | [] => []
  | a :: rest =>
    if hp : a = '$' ∧ rest.head? = some '{' then
      match h : findBrace rest.tail with
      | some (name, rest') =>
        if name.isEmpty then a :: resolveL env rest
        else ((env ⟨name⟩).getD "").data ++ resolveL env rest'
      | none => a :: resolveL env rest
    else a :: resolveL env rest
termination_by l => l.length
decreasing_by
  · simp
  · have h1 := findBrace_length h
    have h2 : t ≠ [] := by
      intro he
      rw [he] at hp
      exact Option.noConfusion hp.2
    cases t with
    | nil => exact absurd rfl h2
    | cons b r =>
      simp only [List.tail_cons, List.length_cons] at h1 ⊢
      omega
  · simp
  · simp

/-- `resolveEnvVars(value)` from the source, with the ambient `process.env`
passed explicitly. -/
def resolveEnvVars (env : String → Option String) (value : String) : String :=
  ⟨resolveL env value.data⟩

/-- Whether a `${NAME}` placeholder (a `${`, then a nonempty run of
non-`}` characters, then `}`) starts at this position. -/
def isPhStart : List Char → Bool
  | '$' :: '{' :: rest =>
    match findBrace rest with
    | some (name, _) => !name.isEmpty
    | none => false
  | _ => false

/-- Whether the character list contains a `${NAME}` placeholder anywhere:
some suffix starts with one. -/
def hasPlaceholder (l : List Char) : Bool := l.tails.any isPhStart

/-- A decomposition of a configuration string into literal chunks and
`${name}` placeholders, used to state the substitution law for
`resolveEnvVars`. -/
inductive Tok where
  | lit (chunk : List Char)
  | ph (name : List Char)

def renderTok : Tok → List Char
  | .lit c => c
  | .ph n => '$' :: '{' :: (n ++ ['}'])

/-- The string decomposed by a token list. -/
def renderToks (ts : List Tok) : List Char :=
  ts.foldr (fun t acc => renderTok t ++ acc) []

/-- The expected substitution result: placeholders replaced by the
environment value (empty when unset), literal chunks untouched. -/
def substTok (env : String → Option String) : Tok → List Char
  | .lit c => c
  | .ph n => ((env ⟨n⟩).getD "").data

def substToks (env : String → Option String) (ts : List Tok) : List Char :=
  ts.foldr (fun t acc => substTok env t ++ acc) []

/-- Well-formedness of a token: a placeholder's name is nonempty and free of
`}`; a literal chunk contains no `${` and does not end in `$` (so chunks
cannot combine with what follows into a placeholder the regex would match).
-/
def TokOk : Tok → Prop
  | .lit c => ¬ (['$', '{'] <:+: c) ∧ c.getLast? ≠ some '$'
  | .ph n => n ≠ [] ∧ '}' ∉ n

/-! ## Configuration and cache loading

Source: `part_000` lines 18–48 (types) and 75–85 (`loadCache`).  `loadCache`
reads and `JSON.parse`s the cache file — any read or parse failure is caught
and yields `null`, modelled by the `Option Json` input being `none` — and
then rejects the document unless `cache.version !== 1` is false and
`Array.isArray(cache.servers)` is true. -/

structure ServerConfig where
  command : Option String := none
  args : Option (List String) := none
  env : Option (List (String × String)) := none
  url : Option String := none
  headers : Option (List (String × String)) := none
  enabled : Option Bool := none
  toolPrefix : Option Bool := none

/-- `cache.version !== 1` is false, i.e. the version tag is the number 1. -/
def versionOk (j : Json) : Bool :=
  match getField j "version" with
  | some (.num n) => n == 1
  | _ => false

/-- `Array.isArray(cache.servers)`. -/
def serversOk (j : Json) : Bool :=
  match getField j "servers" with
  | some (.arr _) => true
  | _ => false

/-- `loadCache` (`part_000` lines 75–85): `none` in = unreadable/unparsable
file (the `catch` path); a parsed document is returned only when its version
tag is 1 and its `servers` field is an array. -/
def loadCache (raw : Option Json) : Option Json :=
  match raw with
  | none => none
  | some j => if versionOk j && serversOk j then some j else none

/-- The entries of a validated cache document's `servers` array. -/
def cacheEntries (j : Json) : List Json :=
  match getField j "servers" with
  | some (.arr es) => es
  | _ => []

/-- One tool record of a cache entry, decoded from its JSON (`CachedTool` in
the source).  The registration loop reads exactly these fields; well-typed
cache entries (string `name`, string `description` when present) are
assumed, matching the source's unvalidated cast of the parsed document. -/
structure CachedTool where
  name : String
  description : Option String
  inputSchema : Option Json

def getStr (j : Option Json) : String :=
  match j with
  | some (.str s) => s
  | _ => ""

def getStrOpt (j : Option Json) : Option String :=
  match j with
  | some (.str s) => some s
  | _ => none

def decodeTool (t : Json) : CachedTool :=
  { name := getStr (getField t "name")
    description := getStrOpt (getField t "description")
    inputSchema := getField t "inputSchema" }

def toolsOf (e : Json) : List Json :=
  match getField e "tools" with
  | some (.arr ts) => ts
  | _ => []

/-- The description built for a registered tool in the cached-catalog variant
(`part_000` lines 211–214): the tool's own description (or the generated
default) joined with the `(MCP: server/tool)` back-reference. -/
def descriptionCached (serverName mcpToolName : String)
    (toolDesc : Option String) : String :=
  (toolDesc.getD ("MCP tool from " ++ serverName)) ++ " " ++
    ("(MCP: " ++ serverName ++ "/" ++ mcpToolName ++ ")")

/-- The description built in the live-discovery variant (`part_001` lines
196–199): when the prefix flag is off, the back-reference omits the remote
tool name. -/
def descriptionLive (serverName mcpToolName : String)
    (toolDesc : Option String) (usePfx : Bool) : String :=
  (toolDesc.getD ("MCP tool from " ++ serverName)) ++ " " ++
    (if usePfx then "(MCP: " ++ serverName ++ "/" ++ mcpToolName ++ ")"
     else "(MCP: " ++ serverName ++ ")")

/-- `tool.inputSchema ?? { type: "object", properties: {} }`. -/
def defaultSchema : Json :=
  .obj [("type", .str "object"), ("properties", .obj [])]

/-- What `api.registerTool` receives for one tool (`part_000` lines
221–258), minus the handler closure: the sanitized name, the built
description, the schema, and the `optional` flag. -/
structure Registration where
  name : String
  description : String
  parameters : Json
  optionalTool : Bool

/-- The registrations produced for one cache entry (`part_000` lines
197–262): servers missing from the live config or with `enabled === false`
are skipped; the prefix flag is `toolPrefix !== false`. -/
def regsForEntry (servers : String → Option ServerConfig)
    (optionalTools : Bool) (e : Json) : List Registration :=
  let serverName := getStr (getField e "server")
  match servers serverName with
  | none => []
  | some cfg =>
    if cfg.enabled = some false then []
    else
      let usePfx := cfg.toolPrefix ≠ some false
      (toolsOf e).map (fun tj =>
        let t := decodeTool tj
        { name := sanitizeToolName serverName t.name usePfx
          description := descriptionCached serverName t.name t.description
          parameters :=
            match t.inputSchema with
            | some .null => defaultSchema
            | some v => v
            | none => defaultSchema
          optionalTool := optionalTools })

/-- Deferred-mode startup registration (`part_000` lines 106–262): when the
cache is rejected or empty, the plugin logs a warning and returns without
registering anything; otherwise each cache entry contributes its
registrations. -/
def startupRegistrations (servers : String → Option ServerConfig)
    (optionalTools : Bool) (raw : Option Json) : List Registration :=
  match loadCache raw with
  | none => []
  | some j =>
    let entries := cacheEntries j
    if entries.isEmpty then []
    else entries.flatMap (regsForEntry servers optionalTools)

/-! ## Result normalization and the invocation handlers

Source: `part_000` lines 227–255 and `part_001` lines 213–251.  A remote
`callTool` result `r` is normalized to
`{ content: r.content ?? [textItem (stringify r)], isError: r.isError === true }`;
any exception along the way is caught and converted to a single-text-item
error result.  The handlers are modelled as total functions of the outcomes
of their two awaited calls: `Except`-valued arguments stand for the promise
of `getClient` (resp. the map lookup) and of `client.callTool`, with a
thrown error's `err.message ?? String(err)` as the `String` payload. -/

structure ToolResult where
  content : Json
  isError : Bool

/-- The `?? [{ type: "text", text: JSON.stringify(result) }]` fallback. -/
def wrapContent (r : Json) : Json :=
  .arr [textItem (stringify r)]

/-- Normalization of a successful remote result (`part_000` lines 238–243):
`result.content` passes through whenever it is present and non-null (`??`
fires only on `undefined`/`null`); `isError` is `result.isError === true`. -/
def normalizeResult (r : Json) : ToolResult :=
  { content :=
      match getField r "content" with
      | some Json.null => wrapContent r
      | some c => c
      | none => wrapContent r
    isError :=
      match getField r "isError" with
      | some (.bool true) => true
      | _ => false }

/-- The catch-branch result: `MCP error (server/tool): message`. -/
def errResult (serverName mcpToolName msg : String) : ToolResult :=
  { content := .arr [textItem
      ("MCP error (" ++ serverName ++ "/" ++ mcpToolName ++ "): " ++ msg)]
    isError := true }

/-- The `execute` handler of the cached/lazy variant (`part_000` lines
227–255): await `getClient` (which performs the connection attempt on a cold
pool), then `callTool`, normalizing success and catching any failure. -/
def executeCached (serverName mcpToolName : String)
    (clientRes : Except String Unit) (callRes : Except String Json) :
    ToolResult :=
  match clientRes with
  | .error msg => errResult serverName mcpToolName msg
  | .ok _ =>
    match callRes with
    | .error msg => errResult serverName mcpToolName msg
    | .ok r => normalizeResult r

/-- The `execute` handler of the eager variant (`part_001` lines 213–251):
look the server's client up in the pool map — reporting
`Error: MCP server '<name>' is not connected` when absent — then `callTool`
with the same normalization and catch. -/
def executeLive (serverName mcpToolName : String)
    (client : Option Unit) (callRes : Except String Json) : ToolResult :=
  match client with
  | none =>
    { content := .arr [textItem
        ("Error: MCP server '" ++ serverName ++ "' is not connected")]
      isError := true }
  | some _ =>
    match callRes with
    | .error msg => errResult serverName mcpToolName msg
    | .ok r => normalizeResult r

/-- Whether a JSON value is a content item: an object whose `type` field is
a string. -/
def isContentItem (j : Json) : Bool :=
  match getField j "type" with
  | some (.str _) => true
  | _ => false

/-- The expected content-array shape of a remote result's `content` field:
an array of content items. -/
def isContentArray (j : Json) : Bool :=
  match j with
  | .arr items => items.all isContentItem
  | _ => false

/-- Whether a JSON value is a `{ type: "text", text: ... }` item. -/
def isTextItem (j : Json) : Bool :=
  match getField j "type", getField j "text" with
  | some (.str ty), some (.str _) => ty == "text"
  | _, _ => false

/-- Whether a JSON value is a one-element array holding a single text
content item (the shape of the wrapped fallback). -/
def isSingleTextWrap (j : Json) : Bool :=
  match j with
  | .arr [item] => isTextItem item
  | _ => false

/-! ## The lazy connection pool as a transition system

Source: `part_000` lines 116–142 (`getClient`), 144–192 (`connectServer`),
269–283 (the shutdown service).  JavaScript's cooperative concurrency means
each code section between two `await`s runs atomically.  `getClient`'s
section from entry to `connecting.set` contains no `await`, so the check of
`clients`, the check of `connecting`, the config lookup, the start of the
connection attempt, and the registration of the pending promise form one
atomic step; the creator's continuation after `await promise` (store the
client, then `finally` delete the pending entry, in either outcome) is a
second atomic step.  A caller that found a pending promise simply awaits
that same promise.  Promise outcomes are fixed by an oracle indexed by the
attempt number, so all awaiters of one attempt observe one outcome. -/

/-- A connected client, abstractly (its identity is all that matters). -/
abbrev ClientId := Nat

/-- The outcome a `getClient` caller observes: a client or a thrown error's
message. -/
abbrev Outcome := Except String ClientId

/-- Where one logical `getClient(server)` call stands: not yet entered;
suspended on the attempt it registered (the creator, which will run the
`try`/`finally` continuation); suspended on an attempt another call
registered (a joiner, which merely returns the shared promise); or resolved
with its outcome. -/
inductive Phase where
  | start
  | creatorWaiting (pid : Nat)
  | joinerWaiting (pid : Nat)
  | done (r : Outcome)

structure CallerState where
  server : String
  phase : Phase

/-- The pool state at a suspension point: the `clients` map, the
`connecting` map (holding the attempt number of the in-flight promise), the
log of connection attempts started so far (`connectServer` invocations, in
order), and the callers. -/
structure PoolState where
  clients : String → Option ClientId
  pending : String → Option Nat
  attempts : List String
  callers : List CallerState

/-- Pointwise map update (decidable keys). -/
def upd (f : String → Option α) (k : String) (v : Option α) :
    String → Option α :=
  fun k' => if k' = k then v else f k'

/-- Replace the `i`-th element's phase. -/
def setPhase (cs : List CallerState) (i : Nat) (p : Phase) : List CallerState :=
  cs.modify (fun c => { c with phase := p }) i

/-- One atomic step of caller `i`, as dictated by its phase:

* `start` — the synchronous prefix of `getClient`: return the live client if
  present; else join a pending attempt if present; else fail on a missing
  config; else start attempt `attempts.length` (calling `connectServer`) and
  register it in `connecting`.
* `creatorWaiting pid` — the continuation after `await promise`: on success
  store the client in `clients` and (`finally`) delete the pending entry; on
  failure delete the pending entry and propagate the error.
* `joinerWaiting pid` — return the shared promise's outcome.
* `done` — nothing left to run. -/
def runCaller (cfg : String → Option ServerConfig) (oracle : Nat → Outcome)
    (st : PoolState) (i : Nat) : PoolState :=
  match st.callers[i]? with
  | none => st
  | some c =>
    match c.phase with
    | .done _ => st
    | .start =>
      match st.clients c.server with
      | some cl => { st with callers := setPhase st.callers i (.done (.ok cl)) }
      | none =>
        match st.pending c.server with
        | some pid =>
          { st with callers := setPhase st.callers i (.joinerWaiting pid) }
        | none =>
          match cfg c.server with
          | none =>
            { st with callers := setPhase st.callers i (.done (.error
                ("No config for MCP server '" ++ c.server ++ "'"))) }
          | some _ =>
            { clients := st.clients
              pending := upd st.pending c.server (some st.attempts.length)
              attempts := st.attempts ++ [c.server]
              callers := setPhase st.callers i
                (.creatorWaiting st.attempts.length) }
    | .joinerWaiting pid =>
      { st with callers := setPhase st.callers i (.done (oracle pid)) }
    | .creatorWaiting pid =>
      match oracle pid with
      | .ok cl =>
        { clients := upd st.clients c.server (some cl)
          pending := upd st.pending c.server none
          attempts := st.attempts
          callers := setPhase st.callers i (.done (.ok cl)) }
      | .error e =>
        { st with
          pending := upd st.pending c.server none
          callers := setPhase st.callers i (.done (.error e)) }

/-- The `stop` handler of the registered service (`part_000` lines 272–282):
close every client (best-effort, without touching the maps) and then
`clients.clear()`.  The closes do not mutate pool state, so the map effect
is the single atomic clear. -/
def stopAll (st : PoolState) : PoolState :=
  { st with clients := fun _ => none }

/-- A scheduler event: run caller `i`'s next atomic section, or run the
shutdown service's map effect. -/
inductive Ev where
  | step (i : Nat)
  | shutdown

def stepEv (cfg : String → Option ServerConfig) (oracle : Nat → Outcome)
    (st : PoolState) : Ev → PoolState
  | .step i => runCaller cfg oracle st i
  | .shutdown => stopAll st

/-- Run a schedule of events. -/
def runSched (cfg : String → Option ServerConfig) (oracle : Nat → Outcome)
    (evs : List Ev) (st : PoolState) : PoolState :=
  evs.foldl (stepEv cfg oracle) st

/-- The pool's initial state: empty maps, no attempts, and one `start`-phase
caller per requested server name. -/
def initState (targets : List String) : PoolState :=
  { clients := fun _ => none
    pending := fun _ => none
    attempts := []
    callers := targets.map (fun s => { server := s, phase := .start }) }

/-- The mutual-exclusion invariant of claim C9: for every server, the
`clients` map and the `connecting` map never simultaneously hold an entry;
additionally (needed inductively) every creator's attempt is the one
registered in `connecting` for its server, and each server has at most one
creator. -/
def PoolInv (st : PoolState) : Prop :=
  (∀ s, st.clients s = none ∨ st.pending s = none) ∧
  (∀ (i pid : Nat) (c : CallerState), st.callers[i]? = some c →
    c.phase = Phase.creatorWaiting pid → st.pending c.server = some pid) ∧
  (∀ (i j pi pj : Nat) (ci cj : CallerState), st.callers[i]? = some ci →
    st.callers[j]? = some cj → ci.phase = Phase.creatorWaiting pi →
    cj.phase = Phase.creatorWaiting pj → ci.server = cj.server → i = j)

/-- Intermediate invariant for claim C1, during the window in which the `N`
logically concurrent `getClient(s)` calls run their synchronous prefixes:
`P i` says caller `i` has already started.  Callers that have started are
waiting on attempt 0 (one as creator, the rest as joiners); if anyone has
started, attempt 0 is the only one, it is registered in `connecting`, and no
client is stored; if nobody has, the state is still initial. -/
def StartedInv (s : String) (P : Nat → Prop) (st : PoolState) : Prop :=
  (∀ i, i < st.callers.length → ¬ P i → st.callers[i]? = some ⟨s, .start⟩) ∧
  (∀ i, i < st.callers.length → P i →
    st.callers[i]? = some ⟨s, .creatorWaiting 0⟩ ∨
    st.callers[i]? = some ⟨s, .joinerWaiting 0⟩) ∧
  ((∃ i, i < st.callers.length ∧ P i) →
    st.attempts = [s] ∧ st.pending s = some 0 ∧
    st.clients = (fun _ => none)) ∧
  ((∀ i, i < st.callers.length → ¬ P i) →
    st.attempts = [] ∧ st.pending = (fun _ => none) ∧
    st.clients = (fun _ => none))

/-- Invariant for claim C1 after every caller has started: attempt 0 is the
only connection attempt ever made, and every caller targets `s` and is
either waiting on attempt 0 or finished with attempt 0's outcome. -/
def SettledInv (oracle : Nat → Outcome) (s : String) (st : PoolState) : Prop :=
  st.attempts = [s] ∧
  (∀ (i : Nat) (c : CallerState), st.callers[i]? = some c → c.server = s ∧
    (c.phase = Phase.creatorWaiting 0 ∨ c.phase = Phase.joinerWaiting 0 ∨
     c.phase = Phase.done (oracle 0)))

/-! ## Character-level facts -/

theorem toNat_ofNat_valid {n : Nat} (h : n < 0xD800) :
    (Char.ofNat n).toNat = n := by
  unfold Char.ofNat
  rw [dif_pos (Or.inl h)]
  simp [Char.ofNatAux, Char.toNat, UInt32.toNat, BitVec.toNat_ofNatLt]

theorem char_le_iff_toNat {a b : Char} : a ≤ b ↔ a.toNat ≤ b.toNat := by
  simp [Char.le_def, UInt32.le_def, BitVec.le_def, Char.toNat, UInt32.toNat]

theorem char_eq_iff_toNat {a b : Char} : a = b ↔ a.toNat = b.toNat :=
  ⟨fun h => h ▸ rfl, fun h => Char.ext (UInt32.toNat.inj h)⟩

theorem toLower_of_not_upper {c : Char} (h : ¬(65 ≤ c.toNat ∧ c.toNat ≤ 90)) :
    c.toLower = c := by
  unfold Char.toLower
  rw [if_neg]
  intro hc
  exact h ⟨hc.1, hc.2⟩

theorem toNat_toLower_upper {c : Char} (h : 65 ≤ c.toNat ∧ c.toNat ≤ 90) :
    c.toLower.toNat = c.toNat + 32 := by
  unfold Char.toLower
  rw [if_pos ⟨h.1, h.2⟩]
  exact toNat_ofNat_valid (by omega)

theorem keepChar_iff {c : Char} : keepChar c = true ↔
    (97 ≤ c.toNat ∧ c.toNat ≤ 122) ∨ (65 ≤ c.toNat ∧ c.toNat ≤ 90) ∨
    (48 ≤ c.toNat ∧ c.toNat ≤ 57) ∨ c.toNat = 95 := by
  simp [keepChar, char_le_iff_toNat, char_eq_iff_toNat,
    show ('a' : Char).toNat = 97 from rfl, show ('z' : Char).toNat = 122 from rfl,
    show ('A' : Char).toNat = 65 from rfl, show ('Z' : Char).toNat = 90 from rfl,
    show ('0' : Char).toNat = 48 from rfl, show ('9' : Char).toNat = 57 from rfl,
    show ('_' : Char).toNat = 95 from rfl]
  omega

theorem lowerGood_iff {c : Char} : lowerGood c = true ↔
    (97 ≤ c.toNat ∧ c.toNat ≤ 122) ∨ (48 ≤ c.toNat ∧ c.toNat ≤ 57) ∨
    c.toNat = 95 := by
  simp [lowerGood]
  omega

theorem keepChar_underscore : keepChar '_' = true := by decide

theorem lowerGood_keepChar {c : Char} (h : lowerGood c = true) :
    keepChar c = true := by
  rw [keepChar_iff]
  rcases lowerGood_iff.mp h with h1 | h1 | h1
  · exact .inl h1
  · exact .inr (.inr (.inl h1))
  · exact .inr (.inr (.inr h1))

theorem toLower_lowerGood {c : Char} (h : keepChar c = true) :
    lowerGood c.toLower = true := by
  rw [lowerGood_iff]
  rcases keepChar_iff.mp h with h1 | h1 | h1 | h1
  · rw [toLower_of_not_upper (by omega)]; omega
  · rw [toNat_toLower_upper h1] at *; omega
  · rw [toLower_of_not_upper (by omega)]; omega
  · rw [toLower_of_not_upper (by omega)]; omega

theorem toLower_fix {c : Char} (h : lowerGood c = true) : c.toLower = c := by
  rcases lowerGood_iff.mp h with h1 | h1 | h1 <;>
    exact toLower_of_not_upper (by omega)

theorem toLower_underscore_iff {c : Char} : c.toLower = '_' ↔ c = '_' := by
  by_cases h1 : 65 ≤ c.toNat ∧ c.toNat ≤ 90
  · rw [char_eq_iff_toNat, char_eq_iff_toNat, toNat_toLower_upper h1,
      show ('_' : Char).toNat = 95 from rfl]
    omega
  · rw [toLower_of_not_upper h1]

/-! ## `sanitize` characterization -/

theorem mem_replaceBad {c : Char} {l : List Char} (h : c ∈ replaceBad l) :
    keepChar c = true := by
  simp only [replaceBad, List.mem_map] at h
  obtain ⟨a, -, ha⟩ := h
  by_cases hk : keepChar a = true
  · rw [if_pos hk] at ha; exact ha ▸ hk
  · rw [if_neg hk] at ha; exact ha ▸ keepChar_underscore

theorem replaceBad_fix {l : List Char} (h : ∀ c ∈ l, keepChar c = true) :
    replaceBad l = l := by
  induction l with
  | nil => rfl
  | cons a t ih =>
    simp only [replaceBad, List.map_cons, if_pos (h a (.head _))]
    have := ih (fun c hc => h c (.tail _ hc))
    simp only [replaceBad] at this
    rw [this]

theorem collapseU_sublist (l : List Char) : List.Sublist (collapseU l) l := by
  induction l using collapseU.induct with
  | case1 => simp [collapseU]
  | case2 c => simp [collapseU]
  | case3 a b t h ih =>
    rw [collapseU, if_pos h]
    exact ih.cons a
  | case4 a b t h ih =>
    rw [collapseU, if_neg h]
    exact ih.cons₂ a

theorem collapseU_head (l : List Char) : (collapseU l).head? = l.head? := by
  induction l using collapseU.induct with
  | case1 => rfl
  | case2 c => rfl
  | case3 a b t h ih =>
    rw [collapseU, if_pos h, ih]
    simp only [Bool.and_eq_true, decide_eq_true_eq] at h
    simp [h.1, h.2]
  | case4 a b t h ih => rw [collapseU, if_neg h]; rfl

theorem collapseU_chain (l : List Char) : NoAdj (collapseU l) := by
  induction l using collapseU.induct with
  | case1 => simp [collapseU, NoAdj]
  | case2 c => simp [collapseU, NoAdj]
  | case3 a b t h ih => rw [collapseU, if_pos h]; exact ih
  | case4 a b t h ih =>
    rw [collapseU, if_neg h]
    rw [NoAdj, List.chain'_cons']
    refine ⟨fun y hy => ?_, ih⟩
    rw [collapseU_head] at hy
    simp only [List.head?_cons, Option.mem_def, Option.some.injEq] at hy
    subst hy
    simp only [Bool.and_eq_true, decide_eq_true_eq, not_and] at h
    by_cases ha : a = '_'
    · exact .inr (fun hb => h ha hb)
    · exact .inl ha

theorem collapseU_fix {l : List Char} (h : NoAdj l) : collapseU l = l := by
  induction l using collapseU.induct with
  | case1 => rfl
  | case2 c => rfl
  | case3 a b t hab ih =>
    exfalso
    simp only [Bool.and_eq_true, decide_eq_true_eq] at hab
    rw [NoAdj, List.chain'_cons] at h
    rcases h.1 with h1 | h1
    · exact h1 hab.1
    · exact h1 hab.2
  | case4 a b t hab ih =>
    rw [collapseU, if_neg hab]
    rw [NoAdj, List.chain'_cons] at h
    rw [ih h.2]

theorem dropLead_fix {l : List Char} (h : l.head? ≠ some '_') :
    dropLead l = l := by
  cases l with
  | nil => rfl
  | cons c t =>
    rw [dropLead, if_neg]
    intro hc
    subst hc
    exact h rfl

theorem mem_dropLead {c : Char} {l : List Char} (h : c ∈ dropLead l) :
    c ∈ l := by
  cases l with
  | nil => exact h
  | cons a t =>
    rw [dropLead] at h
    split at h
    · exact .tail _ h
    · exact h

theorem noAdj_dropLead {l : List Char} (h : NoAdj l) : NoAdj (dropLead l) := by
  cases l with
  | nil => exact h
  | cons a t =>
    rw [dropLead]
    split
    · exact (List.chain'_cons'.mp h).2
    · exact h

theorem noAdj_reverse {l : List Char} (h : NoAdj l) : NoAdj l.reverse := by
  rw [NoAdj, List.chain'_reverse]
  exact List.Chain'.imp (fun a b hab => hab.symm) h

theorem dropLead_headNe {l : List Char} (h : NoAdj l) :
    (dropLead l).head? ≠ some '_' := by
  cases l with
  | nil => simp [dropLead]
  | cons a t =>
    rw [dropLead]
    split
    · cases t with
      | nil => simp
      | cons b t' =>
        rcases (List.chain'_cons.mp h).1 with hb | hb
        · exact absurd (by assumption) hb
        · simpa using hb
    · simpa using (by assumption : ¬ a = '_')

theorem dropLead_getLastNe {l : List Char} (h : l.getLast? ≠ some '_') :
    (dropLead l).getLast? ≠ some '_' := by
  cases l with
  | nil => simpa [dropLead]
  | cons a t =>
    rw [dropLead]
    split
    · cases t with
      | nil => simp
      | cons b t' =>
        rw [List.getLast?_cons_cons] at h
        exact h
    · exact h

theorem stripU_fix {l : List Char} (h1 : l.head? ≠ some '_')
    (h2 : l.getLast? ≠ some '_') : stripU l = l := by
  rw [stripU, dropLead_fix h1, dropLead_fix, List.reverse_reverse]
  rw [List.head?_reverse]
  exact h2

theorem mem_stripU {c : Char} {l : List Char} (h : c ∈ stripU l) : c ∈ l := by
  rw [stripU, List.mem_reverse] at h
  have := mem_dropLead h
  rw [List.mem_reverse] at this
  exact mem_dropLead this

theorem noAdj_stripU {l : List Char} (h : NoAdj l) : NoAdj (stripU l) := by
  rw [stripU]
  exact noAdj_reverse (noAdj_dropLead (noAdj_reverse (noAdj_dropLead h)))

theorem stripU_getLastNe {l : List Char} (h : NoAdj l) :
    (stripU l).getLast? ≠ some '_' := by
  rw [stripU, List.getLast?_reverse]
  exact dropLead_headNe (noAdj_reverse (noAdj_dropLead h))

theorem stripU_headNe {l : List Char} (h : NoAdj l) :
    (stripU l).head? ≠ some '_' := by
  rw [stripU, List.head?_reverse]
  apply dropLead_getLastNe
  rw [List.getLast?_reverse]
  exact dropLead_headNe h

theorem map_toLower_fix {l : List Char}
    (h : ∀ c ∈ l, lowerGood c = true) : l.map Char.toLower = l := by
  induction l with
  | nil => rfl
  | cons a t ih =>
    rw [List.map_cons, toLower_fix (h a (.head _)), ih]
    exact fun c hc => h c (.tail _ hc)

theorem noAdj_map_toLower {l : List Char}
    (h : NoAdj l) : NoAdj (l.map Char.toLower) := by
  rw [NoAdj, List.chain'_map]
  refine List.Chain'.imp (fun a b hab => ?_) h
  rcases hab with hne | hne
  · exact .inl (fun he => hne (toLower_underscore_iff.mp he))
  · exact .inr (fun he => hne (toLower_underscore_iff.mp he))

theorem headNe_map_toLower {l : List Char}
    (h : l.head? ≠ some '_') : (l.map Char.toLower).head? ≠ some '_' := by
  rw [List.head?_map]
  cases hl : l.head? with
  | none => simp
  | some c =>
    simp only [Option.map_some', ne_eq, Option.some.injEq]
    intro he
    exact h (by rw [hl, toLower_underscore_iff.mp he])

theorem getLastNe_map_toLower {l : List Char}
    (h : l.getLast? ≠ some '_') :
    (l.map Char.toLower).getLast? ≠ some '_' := by
  rw [List.getLast?_map]
  cases hl : l.getLast? with
  | none => simp
  | some c =>
    simp only [Option.map_some', ne_eq, Option.some.injEq]
    intro he
    exact h (by rw [hl, toLower_underscore_iff.mp he])

/-- Every character of `sanitizeL` output is a lowercase letter, digit, or
underscore; no two underscores are adjacent; and the first and last
characters are not underscores. -/
theorem sanitizeL_good (l : List Char) :
    (∀ c ∈ sanitizeL l, lowerGood c = true) ∧ NoAdj (sanitizeL l) ∧
    (sanitizeL l).head? ≠ some '_' ∧ (sanitizeL l).getLast? ≠ some '_' := by
  have hkeep : ∀ c ∈ stripU (collapseU (replaceBad l)), keepChar c = true :=
    fun c hc =>
      mem_replaceBad ((collapseU_sublist _).mem (mem_stripU hc))
  have hadj : NoAdj (stripU (collapseU (replaceBad l))) :=
    noAdj_stripU (collapseU_chain _)
  refine ⟨?_, ?_, ?_, ?_⟩
  · intro c hc
    rw [sanitizeL, List.mem_map] at hc
    obtain ⟨a, ha, rfl⟩ := hc
    exact toLower_lowerGood (hkeep a ha)
  · exact noAdj_map_toLower hadj
  · exact headNe_map_toLower (stripU_headNe (collapseU_chain _))
  · exact getLastNe_map_toLower (stripU_getLastNe (collapseU_chain _))

/-- `sanitizeL` is the identity on lists satisfying its own output
characterization. -/
theorem sanitizeL_fix {l : List Char}
    (hg : ∀ c ∈ l, lowerGood c = true) (ha : NoAdj l)
    (hh : l.head? ≠ some '_') (hl : l.getLast? ≠ some '_') :
    sanitizeL l = l := by
  rw [sanitizeL, replaceBad_fix (fun c hc => lowerGood_keepChar (hg c hc)),
    collapseU_fix ha, stripU_fix hh hl, map_toLower_fix hg]

/-- The character transform of the name resolver is idempotent. -/
theorem sanitizeL_idem (l : List Char) : sanitizeL (sanitizeL l) = sanitizeL l := by
  obtain ⟨hg, ha, hh, hl⟩ := sanitizeL_good l
  exact sanitizeL_fix hg ha hh hl

theorem replaceBad_allBad {l : List Char} (h : ∀ c ∈ l, keepChar c = false) :
    replaceBad l = List.replicate l.length '_' := by
  induction l with
  | nil => rfl
  | cons a t ih =>
    simp only [replaceBad, List.map_cons, List.length_cons, List.replicate_succ]
    rw [if_neg (by simp [h a (.head _)])]
    have := ih (fun c hc => h c (.tail _ hc))
    simp only [replaceBad] at this
    rw [this]

theorem collapseU_replicate (n : Nat) :
    collapseU (List.replicate n '_') = if n = 0 then [] else ['_'] := by
  induction n with
  | zero => rfl
  | succ m ih =>
    cases m with
    | zero => rfl
    | succ k =>
      rw [List.replicate_succ, List.replicate_succ, collapseU, if_pos (by simp),
        ← List.replicate_succ]
      rw [List.replicate_succ] at ih
      simpa using ih

theorem sanitizeL_allBad {l : List Char} (h : ∀ c ∈ l, keepChar c = false) :
    sanitizeL l = [] := by
  rw [sanitizeL, replaceBad_allBad h, collapseU_replicate]
  split
  · rfl
  · rfl

/-! ## Claim C5 -/

/-- C5: `sanitizeToolName` is pure and deterministic (identical inputs give
identical outputs), its inner character transform is idempotent on every
string (`sanitize (sanitize x) = sanitize x`), and on server `"Linear API"`
and tool `"list-issues"` it returns `"linear_api_list_issues"` with the
prefix flag and `"list_issues"` without it. -/
theorem c5_sanitize_deterministic_idempotent :
    (∀ (s1 t1 s2 t2 : String) (p1 p2 : Bool), s1 = s2 → t1 = t2 → p1 = p2 →
      sanitizeToolName s1 t1 p1 = sanitizeToolName s2 t2 p2) ∧
    (∀ x : String, sanitize (sanitize x) = sanitize x) ∧
    sanitizeToolName "Linear API" "list-issues" true = "linear_api_list_issues" ∧
    sanitizeToolName "Linear API" "list-issues" false = "list_issues" := by
  refine ⟨?_, ?_, by decide, by decide⟩
  · intro s1 t1 s2 t2 p1 p2 hs ht hp
    rw [hs, ht, hp]
  · intro x
    show (⟨sanitizeL (String.data ⟨sanitizeL x.data⟩)⟩ : String) = _
    exact congrArg String.mk (sanitizeL_idem x.data)

/-- Witness for C5 at concrete inputs. -/
theorem c5_sanitize_deterministic_idempotent_witness :
    sanitizeToolName "Linear API" "list-issues" true =
      sanitizeToolName "Linear API" "list-issues" true ∧
    sanitize (sanitize "my--Server!") = sanitize "my--Server!" :=
  ⟨c5_sanitize_deterministic_idempotent.1 _ _ _ _ _ _ rfl rfl rfl,
   c5_sanitize_deterministic_idempotent.2.1 "my--Server!"⟩

/-! ## Claim C10 -/

/-- C10: `sanitizeToolName` does not guarantee a nonempty identifier: a
remote name with no `[A-Za-z0-9_]` character sanitizes to the empty string
(unprefixed), and a server name with no such character makes the prefixed
result begin with `_`, because the concatenation is not re-sanitized. -/
theorem c10_sanitize_empty_or_underscore :
    (∀ s t : String, (∀ c ∈ t.data, keepChar c = false) →
      sanitizeToolName s t false = "") ∧
    (∀ s t : String, (∀ c ∈ s.data, keepChar c = false) →
      (sanitizeToolName s t true).data.head? = some '_') := by
  constructor
  · intro s t h
    show (⟨sanitizeL t.data⟩ : String) = ""
    rw [sanitizeL_allBad h]
  · intro s t h
    show ((⟨sanitizeL s.data⟩ : String) ++ "_" ++ sanitize t).data.head? = _
    rw [sanitizeL_allBad h]
    simp [String.data_append]

/-- Witness for C10 at concrete inputs (`"---"` and `"@@@"`). -/
theorem c10_sanitize_empty_or_underscore_witness :
    sanitizeToolName "Server" "---" false = "" ∧
    (sanitizeToolName "@@@" "tool" true).data.head? = some '_' :=
  ⟨c10_sanitize_empty_or_underscore.1 "Server" "---" (by decide),
   c10_sanitize_empty_or_underscore.2 "@@@" "tool" (by decide)⟩

/-! ## `resolveEnvVars` laws -/

theorem findBrace_append {name r : List Char} (h : '}' ∉ name) :
    findBrace (name ++ '}' :: r) = some (name, r) := by
  induction name with
  | nil => simp [findBrace]
  | cons c t ih =>
    have hc : c ≠ '}' := fun he => h (he ▸ List.mem_cons_self c t)
    rw [List.cons_append, findBrace, if_neg hc,
      ih (fun hm => h (List.mem_cons_of_mem c hm))]
    rfl

theorem resolveL_nil (env : String → Option String) : resolveL env [] = [] := by
  simp [resolveL]

theorem resolveL_ph {env : String → Option String} {name r : List Char}
    (hne : name ≠ []) (hbr : '}' ∉ name) :
    resolveL env ('$' :: '{' :: (name ++ '}' :: r)) =
      ((env ⟨name⟩).getD "").data ++ resolveL env r := by
  rw [resolveL]
  rw [dif_pos ⟨rfl, rfl⟩]
  simp only [List.tail_cons]
  split
  · rename_i name' rest' heq
    rw [findBrace_append hbr] at heq
    cases heq
    simp only [List.isEmpty_iff]
    rw [if_neg hne]
  · rename_i heq
    rw [findBrace_append hbr] at heq
    exact Option.noConfusion heq

theorem resolveL_cons_notPh {env : String → Option String} {a : Char}
    {rest : List Char} (h : ¬(a = '$' ∧ rest.head? = some '{')) :
    resolveL env (a :: rest) = a :: resolveL env rest := by
  rw [resolveL, dif_neg h]

theorem resolveL_append_lit {env : String → Option String} {c r : List Char}
    (h1 : ¬ (['$', '{'] <:+: c)) (h2 : c.getLast? ≠ some '$') :
    resolveL env (c ++ r) = c ++ resolveL env r := by
  induction c with
  | nil => rfl
  | cons a c' ih =>
    rw [List.cons_append, resolveL_cons_notPh ?notph]
    case notph =>
      rintro ⟨rfl, hh⟩
      cases c' with
      | nil => exact h2 rfl
      | cons b c'' =>
        simp only [List.cons_append, List.head?_cons, Option.some.injEq] at hh
        subst hh
        exact h1 (List.IsPrefix.isInfix ⟨c'', rfl⟩)
    rw [ih ?h1' ?h2']
    case h1' =>
      intro hin
      exact h1 (hin.trans (List.suffix_cons a c').isInfix)
    case h2' =>
      cases c' with
      | nil => simp
      | cons b c'' =>
        rw [List.getLast?_cons_cons] at h2
        exact h2
    rw [List.cons_append]

theorem resolveL_cons_notPh2 {env : String → Option String} {a : Char}
    {rest name rest' : List Char} (hp : a = '$' ∧ rest.head? = some '{')
    (hfb : findBrace rest.tail = some (name, rest')) (hemp : name.isEmpty = true) :
    resolveL env (a :: rest) = a :: resolveL env rest := by
  rw [resolveL, dif_pos hp]
  split
  · rename_i name2 rest2 heq
    rw [hfb] at heq
    cases heq
    rw [if_pos hemp]
  · rename_i heq
    rw [hfb] at heq

theorem resolveL_cons_notPh3 {env : String → Option String} {a : Char}
    {rest : List Char} (hp : a = '$' ∧ rest.head? = some '{')
    (hfb : findBrace rest.tail = none) :
    resolveL env (a :: rest) = a :: resolveL env rest := by
  rw [resolveL, dif_pos hp]
  split
  · rename_i name2 rest2 heq
    rw [hfb] at heq
    exact Option.noConfusion heq
  · rfl

theorem renderToks_cons (t : Tok) (ts : List Tok) :
    renderToks (t :: ts) = renderTok t ++ renderToks ts := rfl

theorem substToks_cons (env : String → Option String) (t : Tok) (ts : List Tok) :
    substToks env (t :: ts) = substTok env t ++ substToks env ts := rfl

/-- The substitution law: on a string decomposed into well-formed literal
chunks and placeholders, `resolveL` replaces exactly the placeholders by
their environment values and leaves the literal chunks unchanged. -/
theorem resolveToks {env : String → Option String} {ts : List Tok}
    (h : ∀ t ∈ ts, TokOk t) :
    resolveL env (renderToks ts) = substToks env ts := by
  induction ts with
  | nil => exact resolveL_nil env
  | cons t ts' ih =>
    have ht := h t (.head _)
    have hts := ih (fun u hu => h u (.tail _ hu))
    cases t with
    | lit c =>
      rw [renderToks_cons, substToks_cons]
      show resolveL env (c ++ renderToks ts') = c ++ substToks env ts'
      rw [resolveL_append_lit ht.1 ht.2, hts]
    | ph n =>
      rw [renderToks_cons, substToks_cons]
      show resolveL env ('$' :: '{' :: ((n ++ ['}']) ++ renderToks ts')) =
        ((env ⟨n⟩).getD "").data ++ substToks env ts'
      rw [List.append_assoc]
      show resolveL env ('$' :: '{' :: (n ++ '}' :: renderToks ts')) = _
      rw [resolveL_ph ht.1 ht.2, hts]

theorem hasPlaceholder_cons (a : Char) (l : List Char) :
    hasPlaceholder (a :: l) = (isPhStart (a :: l) || hasPlaceholder l) := by
  rw [hasPlaceholder, hasPlaceholder, List.tails_cons, List.any_cons]

/-- The identity law: a string with no `${NAME}` placeholder resolves to
itself. -/
theorem resolveL_fix {env : String → Option String} {l : List Char}
    (h : hasPlaceholder l = false) : resolveL env l = l := by
  induction l using resolveL.induct env with
  | case1 => exact resolveL_nil env
  | case2 a rest hp name rest' hfb hemp ih =>
    rw [resolveL_cons_notPh2 hp hfb (by simp [hemp]), ih]
    rw [hasPlaceholder_cons] at h
    exact (Bool.or_eq_false_iff.mp h).2
  | case3 a rest hp name rest' hfb hemp ih =>
    exfalso
    obtain ⟨rfl, hh⟩ := hp
    cases rest with
    | nil => exact Option.noConfusion hh
    | cons b r2 =>
      simp only [List.head?_cons, Option.some.injEq] at hh
      subst hh
      rw [hasPlaceholder_cons] at h
      have : isPhStart ('$' :: '{' :: r2) = true := by
        rw [isPhStart]
        simp only [List.tail_cons] at hfb
        rw [hfb]
        simp [hemp]
      rw [this] at h
      simp at h
  | case4 a rest hp hfb ih =>
    rw [resolveL_cons_notPh3 hp hfb, ih]
    rw [hasPlaceholder_cons] at h
    exact (Bool.or_eq_false_iff.mp h).2
  | case5 a rest hp ih =>
    rw [resolveL_cons_notPh hp, ih]
    rw [hasPlaceholder_cons] at h
    exact (Bool.or_eq_false_iff.mp h).2

instance : DecidablePred TokOk := fun t =>
  match t with
  | .lit c =>
    inferInstanceAs (Decidable (¬ (['$', '{'] <:+: c) ∧ c.getLast? ≠ some '$'))
  | .ph n => inferInstanceAs (Decidable (n ≠ [] ∧ '}' ∉ n))

/-! ## Claim C6 -/

/-- C6: `resolveEnvVars` replaces every `${NAME}` placeholder by the value of
environment variable `NAME` when set and by the empty string when unset
(stated over an arbitrary decomposition of the input into well-formed
literal chunks and placeholders), and returns any string containing no
`${...}` placeholder unchanged (identity law). -/
theorem c6_resolveEnvVars_subst_and_identity :
    (∀ (env : String → Option String) (ts : List Tok), (∀ t ∈ ts, TokOk t) →
      resolveEnvVars env ⟨renderToks ts⟩ = ⟨substToks env ts⟩) ∧
    (∀ (env : String → Option String) (s : String),
      hasPlaceholder s.data = false → resolveEnvVars env s = s) := by
  constructor
  · intro env ts h
    exact congrArg String.mk (resolveToks h)
  · intro env s h
    show (⟨resolveL env s.data⟩ : String) = s
    rw [resolveL_fix h]

/-- Witness for C6: `"cmd ${HOME}/bin ${MISSING} end"` with `HOME` set to
`"/root"` and `MISSING` unset resolves to `"cmd /root/bin  end"`; a
placeholder-free string resolves to itself. -/
theorem c6_resolveEnvVars_subst_and_identity_witness :
    resolveEnvVars (fun n => if n = "HOME" then some "/root" else none)
      ⟨renderToks [.lit "cmd ".data, .ph "HOME".data, .lit "/bin ".data,
        .ph "MISSING".data, .lit " end".data]⟩ =
      ⟨substToks (fun n => if n = "HOME" then some "/root" else none)
        [.lit "cmd ".data, .ph "HOME".data, .lit "/bin ".data,
          .ph "MISSING".data, .lit " end".data]⟩ ∧
    resolveEnvVars (fun n => if n = "HOME" then some "/root" else none)
      "plain $ text, no placeholder" = "plain $ text, no placeholder" :=
  ⟨c6_resolveEnvVars_subst_and_identity.1 _ _ (by decide),
   c6_resolveEnvVars_subst_and_identity.2 _ _ (by decide)⟩

/-! ## Claim C4 -/

/-- C4 counterexample: the claim says a successful result whose `content` is
not in the content-array shape is replaced by a single stringified text
item.  But the code uses `result.content ?? fallback`, which fires only on
`undefined`/`null`: for `{ content: "oops" }` the string `"oops"` — not a
content array — passes through unchanged, and the returned content is not
the single-text-item wrap the claim requires. -/
theorem c4_normalize_counterexample :
    getField (Json.obj [("content", Json.str "oops")]) "content" =
      some (Json.str "oops") ∧
    isContentArray (Json.str "oops") = false ∧
    (normalizeResult (Json.obj [("content", Json.str "oops")])).content =
      Json.str "oops" ∧
    isSingleTextWrap
      (normalizeResult (Json.obj [("content", Json.str "oops")])).content =
      false :=
  ⟨rfl, rfl, rfl, rfl⟩

/-- C4 amended: the remote result's `content` passes through unchanged
whenever the field is present and non-null — whether or not it is in the
content-array shape — and the single stringified text item is produced
exactly when the field is absent or null; the returned `isError` is true
exactly when the remote result's `isError` field is the boolean `true`. -/
theorem c4_normalize_amended (r : Json) :
    (∀ c, getField r "content" = some c → c ≠ Json.null →
      (normalizeResult r).content = c) ∧
    ((getField r "content" = none ∨ getField r "content" = some Json.null) →
      (normalizeResult r).content = wrapContent r) ∧
    ((normalizeResult r).isError = true ↔
      getField r "isError" = some (Json.bool true)) := by
  refine ⟨?_, ?_, ?_⟩
  · intro c h hne
    cases c with
    | null => exact absurd rfl hne
    | bool b => simp only [normalizeResult, h]
    | num n => simp only [normalizeResult, h]
    | str s => simp only [normalizeResult, h]
    | arr xs => simp only [normalizeResult, h]
    | obj fs => simp only [normalizeResult, h]
  · rintro (h | h) <;> simp only [normalizeResult, h]
  · cases he : getField r "isError" with
    | none => simp [normalizeResult, he]
    | some v =>
      cases v with
      | bool b => cases b <;> simp [normalizeResult, he]
      | null => simp [normalizeResult, he]
      | num n => simp [normalizeResult, he]
      | str s => simp [normalizeResult, he]
      | arr xs => simp [normalizeResult, he]
      | obj fs => simp [normalizeResult, he]

/-- Witness for C4 at concrete results: a present non-null non-array
content passes through; an absent content is wrapped; `isError` mirrors the
boolean flag. -/
theorem c4_normalize_amended_witness :
    (normalizeResult (Json.obj [("content", Json.str "raw")])).content =
      Json.str "raw" ∧
    (normalizeResult (Json.obj [("isError", Json.bool true)])).content =
      wrapContent (Json.obj [("isError", Json.bool true)]) ∧
    ((normalizeResult (Json.obj [("isError", Json.bool true)])).isError = true ↔
      getField (Json.obj [("isError", Json.bool true)]) "isError" =
        some (Json.bool true)) :=
  ⟨(c4_normalize_amended _).1 (Json.str "raw") rfl (fun h => Json.noConfusion h),
   (c4_normalize_amended _).2.1 (.inl rfl),
   (c4_normalize_amended _).2.2⟩

/-! ## Claim C2 -/

/-- C2: both invocation handlers are total functions into the
`{content, isError}` result type (the embedding of "never throws": every
combination of lower-layer outcomes maps to a result), every failure path
returns `isError = true` with a single text content item, and when the
connection attempt fails (the `getClient` outcome is an error, which in the
lazy variant is where connection attempts happen) the text contains both the
server name and the remote tool name.  In the eager variant the
not-connected lookup failure names the server, and a failed remote invoke
names both. -/
theorem c2_execute_error_contract (serverName mcpToolName msg : String)
    (callRes : Except String Json) :
    ((executeCached serverName mcpToolName (.error msg) callRes).isError = true ∧
      ∃ m, (executeCached serverName mcpToolName (.error msg) callRes).content =
          .arr [textItem m] ∧
        serverName.data <:+: m.data ∧ mcpToolName.data <:+: m.data) ∧
    ((executeCached serverName mcpToolName (.ok ()) (.error msg)).isError = true ∧
      ∃ m, (executeCached serverName mcpToolName (.ok ()) (.error msg)).content =
          .arr [textItem m] ∧
        serverName.data <:+: m.data ∧ mcpToolName.data <:+: m.data) ∧
    ((executeLive serverName mcpToolName none callRes).isError = true ∧
      ∃ m, (executeLive serverName mcpToolName none callRes).content =
          .arr [textItem m] ∧
        serverName.data <:+: m.data) ∧
    ((executeLive serverName mcpToolName (some ()) (.error msg)).isError = true ∧
      ∃ m, (executeLive serverName mcpToolName (some ()) (.error msg)).content =
          .arr [textItem m] ∧
        serverName.data <:+: m.data ∧ mcpToolName.data <:+: m.data) := by
  refine ⟨⟨rfl, ?_⟩, ⟨rfl, ?_⟩, ⟨rfl, ?_⟩, ⟨rfl, ?_⟩⟩
  · refine ⟨_, rfl, ⟨"MCP error (".data, ("/" ++ mcpToolName ++ "): " ++ msg).data, ?_⟩,
      ⟨("MCP error (" ++ serverName ++ "/").data, ("): " ++ msg).data, ?_⟩⟩ <;>
      simp [String.data_append]
  · refine ⟨_, rfl, ⟨"MCP error (".data, ("/" ++ mcpToolName ++ "): " ++ msg).data, ?_⟩,
      ⟨("MCP error (" ++ serverName ++ "/").data, ("): " ++ msg).data, ?_⟩⟩ <;>
      simp [String.data_append]
  · exact ⟨_, rfl, ⟨"Error: MCP server '".data, ("' is not connected").data,
      by simp [String.data_append]⟩⟩
  · refine ⟨_, rfl, ⟨"MCP error (".data, ("/" ++ mcpToolName ++ "): " ++ msg).data, ?_⟩,
      ⟨("MCP error (" ++ serverName ++ "/").data, ("): " ++ msg).data, ?_⟩⟩ <;>
      simp [String.data_append]

/-! ## Claim C8 -/

/-- C8 counterexample: in the live-discovery variant with the prefix flag
off, the bracketed back-reference is `(MCP: <server>)` and does not contain
the remote tool name — here `"list_tasks"` does not occur anywhere in the
registered description. -/
theorem c8_description_counterexample :
    descriptionLive "todo" "list_tasks" none false =
      "MCP tool from todo (MCP: todo)" ∧
    ¬ ("list_tasks".data <:+:
        (descriptionLive "todo" "list_tasks" none false).data) :=
  ⟨rfl, by decide⟩

/-- C8 amended: in the cached variant the registered description is the
descriptor's own description (or the generated default naming the server)
followed by a back-reference containing both the server name and the remote
name, regardless of the prefix flag; in the live variant this holds only
when the prefix flag is on, and with it off the back-reference names only
the server. -/
theorem c8_description_amended (server tool : String) (d : Option String) :
    descriptionCached server tool d =
      (d.getD ("MCP tool from " ++ server)) ++ " " ++
        ("(MCP: " ++ server ++ "/" ++ tool ++ ")") ∧
    server.data <:+: (descriptionCached server tool d).data ∧
    tool.data <:+: (descriptionCached server tool d).data ∧
    descriptionLive server tool d true = descriptionCached server tool d ∧
    descriptionLive server tool d false =
      (d.getD ("MCP tool from " ++ server)) ++ " " ++
        ("(MCP: " ++ server ++ ")") := by
  refine ⟨rfl, ?_, ?_, rfl, rfl⟩
  · exact ⟨((d.getD ("MCP tool from " ++ server)) ++ " " ++ "(MCP: ").data,
      ("/" ++ tool ++ ")").data, by simp [descriptionCached, String.data_append]⟩
  · exact ⟨((d.getD ("MCP tool from " ++ server)) ++ " " ++ "(MCP: " ++ server ++ "/").data,
      (")" : String).data, by simp [descriptionCached, String.data_append]⟩

/-! ## Claim C7 -/

/-- C7: a persisted catalog document whose version tag is not 1 or whose
`servers` field is not an array is treated as absent: `loadCache` rejects it
and deferred-mode startup registers zero tools, with no error (the embedding
is a total function returning the empty registration list). -/
theorem c7_bad_cache_rejected (servers : String → Option ServerConfig)
    (optionalTools : Bool) (j : Json)
    (h : versionOk j = false ∨ serversOk j = false) :
    loadCache (some j) = none ∧
    startupRegistrations servers optionalTools (some j) = [] := by
  have hl : loadCache (some j) = none := by
    rcases h with h | h <;> simp [loadCache, h]
  exact ⟨hl, by simp [startupRegistrations, hl]⟩

/-- Witness for C7: a cache document with version 2 registers nothing. -/
theorem c7_bad_cache_rejected_witness :
    loadCache (some (Json.obj [("version", Json.num 2), ("servers", Json.arr [])])) =
      none ∧
    startupRegistrations (fun _ => none) false
      (some (Json.obj [("version", Json.num 2), ("servers", Json.arr [])])) = [] :=
  c7_bad_cache_rejected _ _ _ (.inl rfl)

/-! ## Pool model: step characterization -/

theorem upd_self {α : Type} (f : String → Option α) (k : String)
    (v : Option α) : upd f k v k = v := by
  simp [upd]

theorem upd_ne {α : Type} (f : String → Option α) {k k' : String}
    (v : Option α) (h : k' ≠ k) : upd f k v k' = f k' := by
  simp [upd, h]

theorem setPhase_length (cs : List CallerState) (i : Nat) (p : Phase) :
    (setPhase cs i p).length = cs.length := by
  simp [setPhase]

theorem setPhase_get_self {cs : List CallerState} {i : Nat} {c : CallerState}
    (p : Phase) (h : cs[i]? = some c) :
    (setPhase cs i p)[i]? = some { c with phase := p } := by
  simp [setPhase, List.getElem?_modify, h]

theorem setPhase_get_ne {cs : List CallerState} {i j : Nat} (p : Phase)
    (h : i ≠ j) : (setPhase cs i p)[j]? = cs[j]? := by
  simp only [setPhase, List.getElem?_modify, if_neg h]
  cases cs[j]? <;> rfl

theorem runCaller_oob {cfg : String → Option ServerConfig}
    {oracle : Nat → Outcome} {st : PoolState} {i : Nat}
    (h : st.callers[i]? = none) : runCaller cfg oracle st i = st := by
  simp only [runCaller, h]

theorem runCaller_done {cfg : String → Option ServerConfig}
    {oracle : Nat → Outcome} {st : PoolState} {i : Nat} {c : CallerState}
    {r : Outcome} (h : st.callers[i]? = some c) (hp : c.phase = .done r) :
    runCaller cfg oracle st i = st := by
  simp only [runCaller, h, hp]

theorem runCaller_joiner {cfg : String → Option ServerConfig}
    {oracle : Nat → Outcome} {st : PoolState} {i : Nat} {c : CallerState}
    {pid : Nat} (h : st.callers[i]? = some c)
    (hp : c.phase = .joinerWaiting pid) :
    runCaller cfg oracle st i =
      { st with callers := setPhase st.callers i (.done (oracle pid)) } := by
  simp only [runCaller, h, hp]

theorem runCaller_creator_ok {cfg : String → Option ServerConfig}
    {oracle : Nat → Outcome} {st : PoolState} {i : Nat} {c : CallerState}
    {pid : Nat} {cl : ClientId} (h : st.callers[i]? = some c)
    (hp : c.phase = .creatorWaiting pid) (ho : oracle pid = .ok cl) :
    runCaller cfg oracle st i =
      { clients := upd st.clients c.server (some cl)
        pending := upd st.pending c.server none
        attempts := st.attempts
        callers := setPhase st.callers i (.done (.ok cl)) } := by
  simp only [runCaller, h, hp, ho]

theorem runCaller_creator_err {cfg : String → Option ServerConfig}
    {oracle : Nat → Outcome} {st : PoolState} {i : Nat} {c : CallerState}
    {pid : Nat} {e : String} (h : st.callers[i]? = some c)
    (hp : c.phase = .creatorWaiting pid) (ho : oracle pid = .error e) :
    runCaller cfg oracle st i =
      { st with
        pending := upd st.pending c.server none
        callers := setPhase st.callers i (.done (.error e)) } := by
  simp only [runCaller, h, hp, ho]

theorem runCaller_start_hit {cfg : String → Option ServerConfig}
    {oracle : Nat → Outcome} {st : PoolState} {i : Nat} {c : CallerState}
    {cl : ClientId} (h : st.callers[i]? = some c) (hp : c.phase = .start)
    (hc : st.clients c.server = some cl) :
    runCaller cfg oracle st i =
      { st with callers := setPhase st.callers i (.done (.ok cl)) } := by
  simp only [runCaller, h, hp, hc]

theorem runCaller_start_join {cfg : String → Option ServerConfig}
    {oracle : Nat → Outcome} {st : PoolState} {i : Nat} {c : CallerState}
    {pid : Nat} (h : st.callers[i]? = some c) (hp : c.phase = .start)
    (hc : st.clients c.server = none) (hpd : st.pending c.server = some pid) :
    runCaller cfg oracle st i =
      { st with callers := setPhase st.callers i (.joinerWaiting pid) } := by
  simp only [runCaller, h, hp, hc, hpd]

theorem runCaller_start_nocfg {cfg : String → Option ServerConfig}
    {oracle : Nat → Outcome} {st : PoolState} {i : Nat} {c : CallerState}
    (h : st.callers[i]? = some c) (hp : c.phase = .start)
    (hc : st.clients c.server = none) (hpd : st.pending c.server = none)
    (hcfg : cfg c.server = none) :
    runCaller cfg oracle st i =
      { st with callers := setPhase st.callers i (.done (.error
          ("No config for MCP server '" ++ c.server ++ "'"))) } := by
  simp only [runCaller, h, hp, hc, hpd, hcfg]

theorem runCaller_start_create {cfg : String → Option ServerConfig}
    {oracle : Nat → Outcome} {st : PoolState} {i : Nat} {c : CallerState}
    {sc : ServerConfig} (h : st.callers[i]? = some c) (hp : c.phase = .start)
    (hc : st.clients c.server = none) (hpd : st.pending c.server = none)
    (hcfg : cfg c.server = some sc) :
    runCaller cfg oracle st i =
      { clients := st.clients
        pending := upd st.pending c.server (some st.attempts.length)
        attempts := st.attempts ++ [c.server]
        callers := setPhase st.callers i
          (.creatorWaiting st.attempts.length) } := by
  simp only [runCaller, h, hp, hc, hpd, hcfg]

theorem runCaller_length (cfg : String → Option ServerConfig)
    (oracle : Nat → Outcome) (st : PoolState) (i : Nat) :
    (runCaller cfg oracle st i).callers.length = st.callers.length := by
  cases h : st.callers[i]? with
  | none => rw [runCaller_oob h]
  | some c =>
    cases hp : c.phase with
    | done r => rw [runCaller_done h hp]
    | start =>
      cases hc : st.clients c.server with
      | some cl => rw [runCaller_start_hit h hp hc]; exact setPhase_length ..
      | none =>
        cases hpd : st.pending c.server with
        | some pid => rw [runCaller_start_join h hp hc hpd]; exact setPhase_length ..
        | none =>
          cases hcfg : cfg c.server with
          | none => rw [runCaller_start_nocfg h hp hc hpd hcfg]; exact setPhase_length ..
          | some sc => rw [runCaller_start_create h hp hc hpd hcfg]; exact setPhase_length ..
    | joinerWaiting pid => rw [runCaller_joiner h hp]; exact setPhase_length ..
    | creatorWaiting pid =>
      cases ho : oracle pid with
      | ok cl => rw [runCaller_creator_ok h hp ho]; exact setPhase_length ..
      | error e => rw [runCaller_creator_err h hp ho]; exact setPhase_length ..

/-! ## Claim C9: mutual exclusion of live session and pending connection -/

theorem poolInv_setPhase_noncreator {st : PoolState} {i : Nat}
    {c : CallerState} (h : PoolInv st) (hcal : st.callers[i]? = some c)
    {p : Phase} (hp : ∀ pid, p ≠ Phase.creatorWaiting pid) :
    PoolInv { st with callers := setPhase st.callers i p } := by
  obtain ⟨ha, hb, hc⟩ := h
  refine ⟨ha, ?_, ?_⟩
  · intro k pid ck hk hpk
    dsimp only at hk ⊢
    by_cases hki : k = i
    · subst hki
      rw [setPhase_get_self p hcal] at hk
      cases hk
      exact absurd hpk (hp pid)
    · rw [setPhase_get_ne p (fun he => hki he.symm)] at hk
      exact hb k pid ck hk hpk
  · intro k l pk pl ck cl hk hl hpk hpl hs
    dsimp only at hk hl
    by_cases hki : k = i
    · subst hki
      rw [setPhase_get_self p hcal] at hk
      cases hk
      exact absurd hpk (hp pk)
    · by_cases hli : l = i
      · subst hli
        rw [setPhase_get_self p hcal] at hl
        cases hl
        exact absurd hpl (hp pl)
      · rw [setPhase_get_ne p (fun he => hki he.symm)] at hk
        rw [setPhase_get_ne p (fun he => hli he.symm)] at hl
        exact hc k l pk pl ck cl hk hl hpk hpl hs

theorem poolInv_runCaller {cfg : String → Option ServerConfig}
    {oracle : Nat → Outcome} {st : PoolState} {i : Nat} (h : PoolInv st) :
    PoolInv (runCaller cfg oracle st i) := by
  cases hcal : st.callers[i]? with
  | none => rw [runCaller_oob hcal]; exact h
  | some c =>
    cases hph : c.phase with
    | done r => rw [runCaller_done hcal hph]; exact h
    | joinerWaiting pid =>
      rw [runCaller_joiner hcal hph]
      exact poolInv_setPhase_noncreator h hcal
        (fun pid' he => Phase.noConfusion he)
    | start =>
      cases hcl : st.clients c.server with
      | some cl =>
        rw [runCaller_start_hit hcal hph hcl]
        exact poolInv_setPhase_noncreator h hcal
          (fun pid' he => Phase.noConfusion he)
      | none =>
        cases hpd : st.pending c.server with
        | some pid =>
          rw [runCaller_start_join hcal hph hcl hpd]
          exact poolInv_setPhase_noncreator h hcal
            (fun pid' he => Phase.noConfusion he)
        | none =>
          cases hcfg : cfg c.server with
          | none =>
            rw [runCaller_start_nocfg hcal hph hcl hpd hcfg]
            exact poolInv_setPhase_noncreator h hcal
              (fun pid' he => Phase.noConfusion he)
          | some sc =>
            rw [runCaller_start_create hcal hph hcl hpd hcfg]
            obtain ⟨ha, hb, hc⟩ := h
            refine ⟨?_, ?_, ?_⟩
            · intro s
              dsimp only
              by_cases hs : s = c.server
              · subst hs
                exact .inl hcl
              · rw [upd_ne _ _ hs]
                exact ha s
            · intro k pid ck hk hpk
              dsimp only at hk ⊢
              by_cases hki : k = i
              · subst hki
                rw [setPhase_get_self _ hcal] at hk
                cases hk
                cases hpk
                exact upd_self ..
              · rw [setPhase_get_ne _ (fun he => hki he.symm)] at hk
                have := hb k pid ck hk hpk
                by_cases hs : ck.server = c.server
                · rw [hs, hpd] at this
                  exact Option.noConfusion this
                · rw [upd_ne _ _ hs]
                  exact this
            · intro k l pk pl ck cl hk hl hpk hpl hs
              dsimp only at hk hl
              by_cases hki : k = i <;> by_cases hli : l = i
              · rw [hki, hli]
              · subst hki
                rw [setPhase_get_self _ hcal] at hk
                cases hk
                rw [setPhase_get_ne _ (fun he => hli he.symm)] at hl
                have := hb l pl cl hl hpl
                rw [← hs] at this
                simp only at this
                rw [hpd] at this
                exact Option.noConfusion this
              · subst hli
                rw [setPhase_get_self _ hcal] at hl
                cases hl
                rw [setPhase_get_ne _ (fun he => hki he.symm)] at hk
                have := hb k pk ck hk hpk
                rw [hs] at this
                simp only at this
                rw [hpd] at this
                exact Option.noConfusion this
              · rw [setPhase_get_ne _ (fun he => hki he.symm)] at hk
                rw [setPhase_get_ne _ (fun he => hli he.symm)] at hl
                exact hc k l pk pl ck cl hk hl hpk hpl hs
    | creatorWaiting pid =>
      have hpds : st.pending c.server = some pid := h.2.1 i pid c hcal hph
      have hstep : ∀ (clients' : String → Option ClientId) (r : Outcome),
          (∀ s, s ≠ c.server → clients' s = st.clients s) →
          PoolInv { clients := clients'
                    pending := upd st.pending c.server none
                    attempts := st.attempts
                    callers := setPhase st.callers i (.done r) } := by
        intro clients' r hcl'
        obtain ⟨ha, hb, hc⟩ := h
        refine ⟨?_, ?_, ?_⟩
        · intro s
          dsimp only
          by_cases hs : s = c.server
          · subst hs
            exact .inr (upd_self ..)
          · rw [upd_ne _ _ hs]
            rcases ha s with h1 | h1
            · exact .inl (by rw [hcl' s hs]; exact h1)
            · exact .inr h1
        · intro k pid' ck hk hpk
          dsimp only at hk ⊢
          by_cases hki : k = i
          · subst hki
            rw [setPhase_get_self _ hcal] at hk
            cases hk
            exact absurd hpk (fun he => Phase.noConfusion he)
          · rw [setPhase_get_ne _ (fun he => hki he.symm)] at hk
            have := hb k pid' ck hk hpk
            by_cases hs : ck.server = c.server
            · exfalso
              have hkeq := hc k i pid' pid ck c hk hcal hpk hph hs
              exact hki hkeq
            · rw [upd_ne _ _ hs]
              exact this
        · intro k l pk pl ck cl hk hl hpk hpl hs
          dsimp only at hk hl
          by_cases hki : k = i
          · subst hki
            rw [setPhase_get_self _ hcal] at hk
            cases hk
            exact absurd hpk (fun he => Phase.noConfusion he)
          · by_cases hli : l = i
            · subst hli
              rw [setPhase_get_self _ hcal] at hl
              cases hl
              exact absurd hpl (fun he => Phase.noConfusion he)
            · rw [setPhase_get_ne _ (fun he => hki he.symm)] at hk
              rw [setPhase_get_ne _ (fun he => hli he.symm)] at hl
              exact hc k l pk pl ck cl hk hl hpk hpl hs
      cases ho : oracle pid with
      | ok cl =>
        rw [runCaller_creator_ok hcal hph ho]
        exact hstep _ _ (fun s hs => upd_ne _ _ hs)
      | error e =>
        rw [runCaller_creator_err hcal hph ho]
        exact hstep _ _ (fun s hs => rfl)

theorem poolInv_stopAll {st : PoolState} (h : PoolInv st) :
    PoolInv (stopAll st) := by
  obtain ⟨ha, hb, hc⟩ := h
  exact ⟨fun s => .inl rfl, hb, hc⟩

theorem initState_get {targets : List String} {i : Nat} {c : CallerState}
    (h : (initState targets).callers[i]? = some c) : c.phase = Phase.start := by
  rw [initState] at h
  dsimp only at h
  rw [List.getElem?_map] at h
  cases ht : targets[i]? with
  | none => rw [ht] at h; exact Option.noConfusion h
  | some t =>
    rw [ht] at h
    cases h
    rfl

theorem poolInv_init (targets : List String) : PoolInv (initState targets) := by
  refine ⟨fun s => .inl rfl, ?_, ?_⟩
  · intro i pid c hc hp
    rw [initState_get hc] at hp
    exact absurd hp (fun he => Phase.noConfusion he)
  · intro i j pi pj ci cj hi hj hpi hpj hs
    rw [initState_get hi] at hpi
    exact absurd hpi (fun he => Phase.noConfusion he)

theorem runSched_cons (cfg : String → Option ServerConfig)
    (oracle : Nat → Outcome) (e : Ev) (evs : List Ev) (st : PoolState) :
    runSched cfg oracle (e :: evs) st =
      runSched cfg oracle evs (stepEv cfg oracle st e) := rfl

theorem poolInv_sched (cfg : String → Option ServerConfig)
    (oracle : Nat → Outcome) (evs : List Ev) (st : PoolState)
    (h : PoolInv st) : PoolInv (runSched cfg oracle evs st) := by
  induction evs generalizing st with
  | nil => exact h
  | cons e t ih =>
    rw [runSched_cons]
    cases e with
    | step i => exact ih _ (poolInv_runCaller h)
    | shutdown => exact ih _ (poolInv_stopAll h)

/-- C9: in every state reachable from the initial pool state by any
interleaving of `getClient` steps and shutdown, for every server name at
most one of a live client and a pending connection entry exists — the
`clients` map and the `connecting` map never simultaneously hold an entry
for the same server at a suspension point. -/
theorem c9_session_pending_exclusive (cfg : String → Option ServerConfig)
    (oracle : Nat → Outcome) (targets : List String) (evs : List Ev)
    (s : String) :
    (runSched cfg oracle evs (initState targets)).clients s = none ∨
    (runSched cfg oracle evs (initState targets)).pending s = none :=
  (poolInv_sched cfg oracle evs _ (poolInv_init targets)).1 s

/-! ## Claim C3 -/

/-- C3: when the `getClient` call that registered a pending connection
resolves — the creator's continuation runs, whether the attempt succeeded or
failed — the pending map holds no entry for that server afterwards (the
`finally` clause); and a subsequent `getClient` call that finds no live
client and no pending entry for a configured server starts a fresh
connection attempt (appending to the attempt log and registering a new
pending entry), so a connection failure is retryable. -/
theorem c3_pending_cleared_on_resolution :
    (∀ (cfg : String → Option ServerConfig) (oracle : Nat → Outcome)
        (st : PoolState) (i pid : Nat) (c : CallerState),
      st.callers[i]? = some c → c.phase = Phase.creatorWaiting pid →
      (runCaller cfg oracle st i).pending c.server = none) ∧
    (∀ (cfg : String → Option ServerConfig) (oracle : Nat → Outcome)
        (st : PoolState) (j : Nat) (c : CallerState) (sc : ServerConfig),
      st.callers[j]? = some c → c.phase = Phase.start →
      st.pending c.server = none → st.clients c.server = none →
      cfg c.server = some sc →
      (runCaller cfg oracle st j).attempts = st.attempts ++ [c.server] ∧
      (runCaller cfg oracle st j).pending c.server =
        some st.attempts.length) := by
  constructor
  · intro cfg oracle st i pid c h hp
    cases ho : oracle pid with
    | ok cl =>
      rw [runCaller_creator_ok h hp ho]
      exact upd_self ..
    | error e =>
      rw [runCaller_creator_err h hp ho]
      exact upd_self ..
  · intro cfg oracle st j c sc h hp hpd hcl hcfg
    rw [runCaller_start_create h hp hcl hpd hcfg]
    exact ⟨rfl, upd_self ..⟩

/-- Witness for C3: one caller for server `"srv"` whose connection attempt
fails; after its creator continuation runs the pending entry is gone, and a
fresh call on the initial state starts attempt 0. -/
theorem c3_pending_cleared_on_resolution_witness :
    (runCaller (fun s => if s = "srv" then some {} else none)
        (fun _ => Except.error "boom")
        (runCaller (fun s => if s = "srv" then some {} else none)
          (fun _ => Except.error "boom") (initState ["srv"]) 0)
        0).pending "srv" = none ∧
    ((runCaller (fun s => if s = "srv" then some {} else none)
        (fun _ => Except.error "boom") (initState ["srv"]) 0).attempts =
      (initState ["srv"]).attempts ++ ["srv"] ∧
     (runCaller (fun s => if s = "srv" then some {} else none)
        (fun _ => Except.error "boom") (initState ["srv"]) 0).pending "srv" =
      some (initState ["srv"]).attempts.length) :=
  ⟨c3_pending_cleared_on_resolution.1 _ _ _ 0 0 ⟨"srv", .creatorWaiting 0⟩
      rfl rfl,
   c3_pending_cleared_on_resolution.2 _ _ _ 0 ⟨"srv", .start⟩ {} rfl rfl
      rfl rfl rfl⟩

/-! ## Claim C1: concurrent `getClient` calls coalesce into one attempt -/

theorem runSched_length (cfg : String → Option ServerConfig)
    (oracle : Nat → Outcome) (evs : List Ev) (st : PoolState) :
    (runSched cfg oracle evs st).callers.length = st.callers.length := by
  induction evs generalizing st with
  | nil => rfl
  | cons e t ih =>
    rw [runSched_cons]
    rw [ih]
    cases e with
    | step i => exact runCaller_length ..
    | shutdown => rfl

theorem runSched_append (cfg : String → Option ServerConfig)
    (oracle : Nat → Outcome) (l₁ l₂ : List Ev) (st : PoolState) :
    runSched cfg oracle (l₁ ++ l₂) st =
      runSched cfg oracle l₂ (runSched cfg oracle l₁ st) :=
  List.foldl_append ..

theorem startedInv_congr {s : String} {P Q : Nat → Prop} {st : PoolState}
    (hpq : ∀ i, P i ↔ Q i) (h : StartedInv s P st) : StartedInv s Q st := by
  obtain ⟨h1, h2, h3, h4⟩ := h
  refine ⟨fun i hi hq => h1 i hi (fun hp => hq ((hpq i).mp hp)),
    fun i hi hq => h2 i hi ((hpq i).mpr hq),
    fun he => ?_,
    fun hall => h4 (fun i hi hp => hall i hi ((hpq i).mp hp))⟩
  obtain ⟨i, hi, hq⟩ := he
  exact h3 ⟨i, hi, (hpq i).mpr hq⟩

theorem startedInv_step {cfg : String → Option ServerConfig}
    (oracle : Nat → Outcome) {s : String} {sc : ServerConfig}
    (hcfg : cfg s = some sc) {P : Nat → Prop} {st : PoolState} {a : Nat}
    (h : StartedInv s P st) (ha : a < st.callers.length) (hPa : ¬ P a) :
    StartedInv s (fun i => P i ∨ i = a) (runCaller cfg oracle st a) := by
  obtain ⟨h1, h2, h3, h4⟩ := h
  have hca : st.callers[a]? = some ⟨s, .start⟩ := h1 a ha hPa
  by_cases hex : ∃ i, i < st.callers.length ∧ P i
  · obtain ⟨hat, hpd, hclients⟩ := h3 hex
    have hclient : st.clients (⟨s, Phase.start⟩ : CallerState).server = none := by
      rw [hclients]
    rw [runCaller_start_join hca rfl hclient hpd]
    refine ⟨?_, ?_, ?_, ?_⟩
    · intro i hi hq
      dsimp only at hi ⊢
      rw [setPhase_length] at hi
      rw [setPhase_get_ne _ (fun he => hq (.inr he.symm))]
      exact h1 i hi (fun hp => hq (.inl hp))
    · intro i hi hq
      dsimp only at hi ⊢
      rw [setPhase_length] at hi
      rcases hq with hp | rfl
      · have hia : i ≠ a := fun he => hPa (he ▸ hp)
        rw [setPhase_get_ne _ (fun he => hia he.symm)]
        exact h2 i hi hp
      · rw [setPhase_get_self _ hca]
        exact .inr rfl
    · intro _
      exact ⟨hat, hpd, hclients⟩
    · intro hall
      dsimp only at hall
      rw [setPhase_length] at hall
      exact absurd (Or.inr rfl) (hall a ha)
  · have hnone : ∀ i, i < st.callers.length → ¬ P i := by
      intro i hi hp
      exact hex ⟨i, hi, hp⟩
    obtain ⟨hat, hpd, hclients⟩ := h4 hnone
    have hclient : st.clients (⟨s, Phase.start⟩ : CallerState).server = none := by
      rw [hclients]
    have hpend : st.pending (⟨s, Phase.start⟩ : CallerState).server = none := by
      rw [hpd]
    rw [runCaller_start_create hca rfl hclient hpend hcfg]
    refine ⟨?_, ?_, ?_, ?_⟩
    · intro i hi hq
      dsimp only at hi ⊢
      rw [setPhase_length] at hi
      rw [setPhase_get_ne _ (fun he => hq (.inr he.symm))]
      exact h1 i hi (fun hp => hq (.inl hp))
    · intro i hi hq
      dsimp only at hi ⊢
      rw [setPhase_length] at hi
      rcases hq with hp | rfl
      · exact absurd hp (hnone i hi)
      · rw [setPhase_get_self _ hca]
        rw [hat]
        exact .inl rfl
    · intro _
      dsimp only
      rw [hat]
      exact ⟨rfl, upd_self .., hclients⟩
    · intro hall
      dsimp only at hall
      rw [setPhase_length] at hall
      exact absurd (Or.inr rfl) (hall a ha)

theorem startedInv_run {cfg : String → Option ServerConfig}
    (oracle : Nat → Outcome) {s : String} {sc : ServerConfig}
    (hcfg : cfg s = some sc) :
    ∀ (l : List Nat) (P : Nat → Prop) (st : PoolState),
      StartedInv s P st → l.Nodup →
      (∀ i ∈ l, i < st.callers.length ∧ ¬ P i) →
      StartedInv s (fun i => P i ∨ i ∈ l)
        (runSched cfg oracle (l.map Ev.step) st) := by
  intro l
  induction l with
  | nil =>
    intro P st h _ _
    exact startedInv_congr (fun i => by simp) h
  | cons a t ih =>
    intro P st h hnd hmem
    rw [List.map_cons, runSched_cons]
    have hstep := startedInv_step oracle hcfg h
      (hmem a (.head _)).1 (hmem a (.head _)).2
    have hlen : (runCaller cfg oracle st a).callers.length =
        st.callers.length := runCaller_length ..
    have hnd' := List.nodup_cons.mp hnd
    have ht := ih (fun i => P i ∨ i = a) _ hstep hnd'.2 ?mem
    · refine startedInv_congr (fun i => ?_) ht
      rw [List.mem_cons]
      tauto
    case mem =>
      intro i hi
      refine ⟨by rw [hlen]; exact (hmem i (.tail _ hi)).1, ?_⟩
      rintro (hp | rfl)
      · exact (hmem i (.tail _ hi)).2 hp
      · exact hnd'.1 hi

theorem startedInv_init (s : String) (N : Nat) :
    StartedInv s (fun _ => False) (initState (List.replicate N s)) := by
  refine ⟨?_, ?_, ?_, ?_⟩
  · intro i hi _
    have hi' : i < N := by
      rw [initState] at hi
      dsimp only at hi
      rw [List.length_map, List.length_replicate] at hi
      exact hi
    rw [initState]
    dsimp only
    rw [List.getElem?_map, List.getElem?_replicate, if_pos hi']
    rfl
  · intro i _ hq
    exact absurd hq (fun h => h)
  · intro he
    obtain ⟨_, _, hq⟩ := he
    exact absurd hq (fun h => h)
  · intro _
    exact ⟨rfl, rfl, rfl⟩

theorem settledInv_runCaller {cfg : String → Option ServerConfig}
    {oracle : Nat → Outcome} {s : String} {st : PoolState} {i : Nat}
    (h : SettledInv oracle s st) :
    SettledInv oracle s (runCaller cfg oracle st i) := by
  obtain ⟨hat, hph⟩ := h
  cases hcal : st.callers[i]? with
  | none => rw [runCaller_oob hcal]; exact ⟨hat, hph⟩
  | some c =>
    obtain ⟨hs, hp3⟩ := hph i c hcal
    rcases hp3 with hp | hp | hp
    · cases ho : oracle 0 with
      | ok cl =>
        rw [runCaller_creator_ok hcal hp ho]
        refine ⟨hat, ?_⟩
        intro k ck hk
        dsimp only at hk
        by_cases hki : k = i
        · subst hki
          rw [setPhase_get_self _ hcal] at hk
          cases hk
          exact ⟨hs, .inr (.inr (by rw [ho]))⟩
        · rw [setPhase_get_ne _ (fun he => hki he.symm)] at hk
          exact hph k ck hk
      | error e =>
        rw [runCaller_creator_err hcal hp ho]
        refine ⟨hat, ?_⟩
        intro k ck hk
        dsimp only at hk
        by_cases hki : k = i
        · subst hki
          rw [setPhase_get_self _ hcal] at hk
          cases hk
          exact ⟨hs, .inr (.inr (by rw [ho]))⟩
        · rw [setPhase_get_ne _ (fun he => hki he.symm)] at hk
          exact hph k ck hk
    · rw [runCaller_joiner hcal hp]
      refine ⟨hat, ?_⟩
      intro k ck hk
      dsimp only at hk
      by_cases hki : k = i
      · subst hki
        rw [setPhase_get_self _ hcal] at hk
        cases hk
        exact ⟨hs, .inr (.inr rfl)⟩
      · rw [setPhase_get_ne _ (fun he => hki he.symm)] at hk
        exact hph k ck hk
    · rw [runCaller_done hcal hp]
      exact ⟨hat, hph⟩

theorem settledInv_run {cfg : String → Option ServerConfig}
    {oracle : Nat → Outcome} {s : String} (σ : List Nat) {st : PoolState}
    (h : SettledInv oracle s st) :
    SettledInv oracle s (runSched cfg oracle (σ.map Ev.step) st) := by
  induction σ generalizing st with
  | nil => exact h
  | cons a t ih =>
    rw [List.map_cons, runSched_cons]
    exact ih (settledInv_runCaller h)

theorem phase1_settled {cfg : String → Option ServerConfig}
    {oracle : Nat → Outcome} {s : String} {sc : ServerConfig} {N : Nat}
    {σ₁ : List Nat} (hcfg : cfg s = some sc) (hN : 0 < N)
    (hperm : σ₁.Perm (List.range N)) :
    SettledInv oracle s
      (runSched cfg oracle (σ₁.map Ev.step)
        (initState (List.replicate N s))) := by
  have hlen0 : (initState (List.replicate N s)).callers.length = N := by
    rw [initState]
    dsimp only
    rw [List.length_map, List.length_replicate]
  have hmemσ : ∀ i, i ∈ σ₁ ↔ i < N := by
    intro i
    rw [hperm.mem_iff, List.mem_range]
  have hrun := startedInv_run oracle hcfg σ₁ (fun _ => False) _
    (startedInv_init s N) (hperm.nodup_iff.mpr (List.nodup_range N))
    (fun i hi => ⟨by rw [hlen0]; exact (hmemσ i).mp hi, fun h => h⟩)
  obtain ⟨g1, g2, g3, g4⟩ := hrun
  have hlen1 : (runSched cfg oracle (σ₁.map Ev.step)
      (initState (List.replicate N s))).callers.length = N := by
    rw [runSched_length, hlen0]
  have hex : ∃ i, i < (runSched cfg oracle (σ₁.map Ev.step)
      (initState (List.replicate N s))).callers.length ∧
      (False ∨ i ∈ σ₁) := by
    refine ⟨0, by rw [hlen1]; exact hN, .inr ((hmemσ 0).mpr hN)⟩
  obtain ⟨hat, _, _⟩ := g3 hex
  refine ⟨hat, ?_⟩
  intro i c hc
  have hi : i < (runSched cfg oracle (σ₁.map Ev.step)
      (initState (List.replicate N s))).callers.length := by
    rcases List.getElem?_eq_some.mp hc with ⟨hlt, _⟩
    exact hlt
  have hmem : (False : Prop) ∨ i ∈ σ₁ :=
    .inr ((hmemσ i).mpr (by rw [← hlen1]; exact hi))
  rcases g2 i hi hmem with h | h
  · rw [hc] at h
    cases h
    exact ⟨rfl, .inl rfl⟩
  · rw [hc] at h
    cases h
    exact ⟨rfl, .inr (.inl rfl)⟩

/-- C1: starting from a pool with no live session and no pending entry for
server `s`, run `N` logically concurrent `getClient(s)` calls: each call's
synchronous prefix runs once, in any order (`σ₁`, a permutation of the `N`
callers), before any attempt resolution — the "simultaneous callers"
window — and then any continuation schedule `σ₂` follows.  Exactly one
underlying connection attempt is made (`connectServer` is invoked once, for
`s`), and every caller that completes observes the single attempt's outcome
(all receive the same client on success or the same failure on failure). -/
theorem c1_concurrent_getClient_dedup (cfg : String → Option ServerConfig)
    (oracle : Nat → Outcome) (s : String) (sc : ServerConfig) (N : Nat)
    (σ₁ σ₂ : List Nat) (hcfg : cfg s = some sc) (hN : 0 < N)
    (hperm : σ₁.Perm (List.range N)) :
    (runSched cfg oracle ((σ₁ ++ σ₂).map Ev.step)
        (initState (List.replicate N s))).attempts = [s] ∧
    (∀ (i : Nat) (c : CallerState),
      (runSched cfg oracle ((σ₁ ++ σ₂).map Ev.step)
          (initState (List.replicate N s))).callers[i]? = some c →
      c.phase = Phase.creatorWaiting 0 ∨ c.phase = Phase.joinerWaiting 0 ∨
        c.phase = Phase.done (oracle 0)) ∧
    (∀ (i j : Nat) (ci cj : CallerState) (ri rj : Outcome),
      (runSched cfg oracle ((σ₁ ++ σ₂).map Ev.step)
          (initState (List.replicate N s))).callers[i]? = some ci →
      (runSched cfg oracle ((σ₁ ++ σ₂).map Ev.step)
          (initState (List.replicate N s))).callers[j]? = some cj →
      ci.phase = Phase.done ri → cj.phase = Phase.done rj → ri = rj) := by
  have hsettled : SettledInv oracle s
      (runSched cfg oracle ((σ₁ ++ σ₂).map Ev.step)
        (initState (List.replicate N s))) := by
    rw [List.map_append, runSched_append]
    exact settledInv_run σ₂ (phase1_settled hcfg hN hperm)
  obtain ⟨hat, hph⟩ := hsettled
  have houtcome : ∀ (i : Nat) (c : CallerState) (r : Outcome),
      (runSched cfg oracle ((σ₁ ++ σ₂).map Ev.step)
          (initState (List.replicate N s))).callers[i]? = some c →
      c.phase = Phase.done r → r = oracle 0 := by
    intro i c r hc hp
    rcases (hph i c hc).2 with h | h | h <;> rw [hp] at h
    · exact absurd h (fun he => Phase.noConfusion he)
    · exact absurd h (fun he => Phase.noConfusion he)
    · cases h
      rfl
  refine ⟨hat, fun i c hc => (hph i c hc).2, ?_⟩
  intro i j ci cj ri rj hi hj hpi hpj
  rw [houtcome i ci ri hi hpi, houtcome j cj rj hj hpj]

/-- Witness for C1: two concurrent callers for `"srv"`, schedule
`[0,1]` (both synchronous prefixes) then `[0,1]` (both continuations),
against an oracle that connects successfully: exactly one connection
attempt is made. -/
theorem c1_concurrent_getClient_dedup_witness :
    (runSched (fun n => if n = "srv" then some {} else none)
        (fun _ => Except.ok 7) (([0, 1] ++ [0, 1]).map Ev.step)
        (initState (List.replicate 2 "srv"))).attempts = ["srv"] :=
  (c1_concurrent_getClient_dedup _ _ _ {} 2 [0, 1] [0, 1] rfl (by decide)
    (by decide)).1

end McpBridge
